import Mathlib

/-!
Verification of the GraphRewrite pass core (PEG construction) of
llvm-cosmo, `lib/Transforms/GraphRewrite/GraphRewrite.cpp`.

The C++ code is shallowly embedded:

* A PEG basic block (`PEGBasicBlock`) is a pair `(b, v)` of the id of the
  underlying source basic block and the `IsVirtualForwardNode` flag.
* `BBEdge` is a structure with an optional source and a destination, as in
  the source; the root (entry) edge has `src = none`.
* Pointers are modelled by `Nat` ids.  `std::set` iteration (which in the
  source runs in pointer order) is modelled by explicit list order; where a
  claim depends on that order the list order stands for one realizable
  address assignment.
* Assertion failures, `report_fatal_error`, dereferencing an empty
  `Optional`, and non-termination are all modelled by `Option`; a function
  returns `none` exactly when the C++ computation does not produce a value.
* The loop analysis, the CFG oracle, and the PEG dominator tree are
  external collaborators of the pass (spec section 6); they appear as
  fields of the `Ctx`/`Oracle` structures.
-/

/-- A PEG basic block: source-block id paired with the
`IsVirtualForwardNode` flag (`true` on the virtual forward twin). -/
abbrev PBlock := Nat × Bool

/-- PEG value nodes.  `bb` is a basic-block placeholder node, `cond` a
condition marker for the given block, `phi` a two-way selector whose first
operand is its condition node, `theta` a loop-iteration node with base and
recurrence operands. -/
inductive PEGNode where
  | bb : PBlock → PEGNode
  | cond : PBlock → PEGNode
  | phi : PEGNode → PEGNode → PEGNode → PEGNode
  | theta : PEGNode → PEGNode → PEGNode
deriving DecidableEq, Repr

/-- `BBEdge` from the source: an optional source block and a destination
block.  The sole edge with `src = none` is the root (entry) edge. -/
structure BBEdge where
  src : Option PBlock
  dst : PBlock
deriving DecidableEq, Repr

/-- `BBEdge::operator==` from the source: componentwise comparison of the
destination and source pointers. -/
def bbEdgeEqB (a b : BBEdge) : Bool :=
  decide (a.dst = b.dst) && decide (a.src = b.src)

/-- The numeric value of the raw source pointer of an edge under an address
assignment `addr`; a null source is address `0`, real blocks get positive
addresses. -/
def srcPtr (addr : PBlock → Nat) : Option PBlock → Nat
  | none => 0
  | some p => addr p + 1

/-- `BBEdge::operator<` from the source, literally
`Dest < other.Dest || Source < other.Source` on raw pointers (note the
missing equality guard on `Dest` before comparing `Source`). -/
def bbEdgeLtB (addr : PBlock → Nat) (a b : BBEdge) : Bool :=
  decide (addr a.dst + 1 < addr b.dst + 1) || decide (srcPtr addr a.src < srcPtr addr b.src)

/-- Fold step of `findCommonDominator`: combine the accumulated dominator
with the (dereferenced) source of each remaining edge.  An edge without a
source makes the C++ dereference an empty `Optional`, which does not
produce a value. -/
def fcdAux (ncd : PBlock → PBlock → PBlock) : List BBEdge → PBlock → Option PBlock
  | [], acc => some acc
  | e :: es, acc =>
    match e.src with
    | none => none
    | some s => fcdAux ncd es (ncd acc s)

/-- `findCommonDominator` from the source: asserts the edge set is
non-empty, then folds `findNearestCommonDominator` over the sources of all
edges, dereferencing each edge's optional source unconditionally. -/
def findCommonDominator (ncd : PBlock → PBlock → PBlock) : List BBEdge → Option PBlock
  | [] => none
  | e :: es =>
    match e.src with
    | none => none
    | some s => fcdAux ncd es s

/-- Modelled from the spec: section 4.2 says `findCommonDominator(E)` folds
the nearest-common-dominator operation across all sources of E, "treating
the entry edge's source as its destination".  The fold as the spec words
it, used only to compare against the source function above. -/
def specFindCommonDominator (ncd : PBlock → PBlock → PBlock) (edges : List BBEdge) :
    Option PBlock :=
  match edges.map (fun e => e.src.getD e.dst) with
  | [] => none
  | s :: ss => some (ss.foldl ncd s)

/-- `makeConstLoopSet` chain walk from the source: starting at loop `l`,
insert the current loop while it has a parent, then move to the parent.
The outermost loop of the chain (the one whose parent is absent) is never
inserted.  The fuel bounds the parent chain; every real loop nest is
finite, so the fuel is immaterial on well-formed inputs. -/
def loopChain (parent : Nat → Option Nat) : Nat → Nat → List Nat
  | 0, _ => []
  | fuel + 1, l =>
    match parent l with
    | none => []
    | some p => l :: loopChain parent fuel p

/-- `makeConstLoopSet` from the source: the loop-set of an optional loop.
The resulting `std::set` iterates in pointer order; the embedding fixes
that order to the chain order (innermost loop first), one realizable
address assignment. -/
def mkLoopSet (parent : Nat → Option Nat) (fuel : Nat) : Option Nat → List Nat
  | none => []
  | some l => loopChain parent fuel l

/-- `isSubset` from the source (`std::includes` over ordered sets):
membership-wise subset test. -/
def isSubsetB (inner outer : List Nat) : Bool :=
  inner.all (fun l => outer.contains l)

/-- Modelled from the spec: `Loop::contains` of the loop-analysis oracle
(section 6) — `a` contains `b` iff `a` is `b` or an ancestor of `b` in the
`parentLoop` chain. -/
def loopContains (parent : Nat → Option Nat) : Nat → Nat → Nat → Bool
  | 0, a, b => a == b
  | fuel + 1, a, b =>
    a == b ||
      match parent b with
      | none => false
      | some p => loopContains parent fuel a p

/-- The accumulator loop of `getOutermostLoopNotInLoop` from the source.
The first loop of the iteration is stored; for every later loop `L` the
source guards on `L->contains(Outermost)` and then assigns to the loop
variable `L` itself (`L = Outermost`), leaving the accumulator unchanged,
so the accumulator keeps its first value. -/
def getOutermostAux (contains : Nat → Nat → Bool) : List Nat → Option Nat → Option Nat
  | [], acc => acc
  | L :: rest, acc =>
    match acc with
    | none => getOutermostAux contains rest (some L)
    | some outermost =>
      let _L := if contains L outermost then outermost else L
      getOutermostAux contains rest (some outermost)

/-- `getOutermostLoopNotInLoop` from the source: asserts
`isSubset(Inner, Outer)` and `Outer` non-empty, then runs the accumulator
loop over `Outer` and returns the accumulated loop. -/
def getOutermostLoopNotInLoop (contains : Nat → Nat → Bool)
    (inner outer : List Nat) : Option Nat :=
  if isSubsetB inner outer then
    if outer.length > 0 then getOutermostAux contains outer none
    else none
  else none

/-- `std::set::insert` on a loop set modelled as a list: no change when the
element is already present. -/
def listInsert (l : Nat) (s : List Nat) : List Nat :=
  if s.contains l then s else l :: s

/-- The context seen by `makeDecideNode`: the APEG block list and successor
map, the PEG dominator tree's nearest-common-dominator query (an external
collaborator, spec section 4.2), the surrounding-loop map of the PEG
blocks, the loop-analysis parent map with a bound on chain length, and the
true/false terminator successors of each PEG block (spec section 6). -/
structure Ctx where
  blocks : List PBlock
  succs : PBlock → List PBlock
  ncd : PBlock → PBlock → PBlock
  loopFor : PBlock → Option Nat
  parentLoop : Nat → Option Nat
  loopBound : Nat
  tfSuccs : PBlock → Option (PBlock × PBlock)

/-- One expansion step of the breadth-first traversal: a set of blocks
together with all successors of its members. -/
def stepSet (succs : PBlock → List PBlock) (s : Finset PBlock) : Finset PBlock :=
  s ∪ s.biUnion (fun x => (succs x).toFinset)

/-- The visited set of the breadth-first traversal (`bf_begin`/`bf_end` in
the source) started at `a`: the successor expansion iterated until it is a
fixed point; `bound` iterations suffice once `bound` exceeds the number of
blocks. -/
def reachSet (succs : PBlock → List PBlock) (bound : Nat) (a : PBlock) : Finset PBlock :=
  (stepSet succs)^[bound] {a}

/-- Membership in the breadth-first visited set, as a Bool. -/
def reachB (ctx : Ctx) (a b : PBlock) : Bool :=
  decide (b ∈ reachSet ctx.succs (ctx.blocks.length + 1) a)

/-- `isReachableFromEdge` from the source: the two edges are equal, or the
destination of `S` is the source of `D`, or the breadth-first traversal
from the destination of `S` visits the source of `D`.  The final branch
dereferences `D`'s optional source; call sites only pass edges with a
source, so the `none` case (a crash in the source) is unreachable there. -/
def isReachableFromEdgeB (ctx : Ctx) (S D : BBEdge) : Bool :=
  if S = D then true
  else if some S.dst = D.src then true
  else
    match D.src with
    | none => false
    | some ds => reachB ctx S.dst ds

/-- One true/false partition of `makeDecideNode` from the source:
the edges of `In` reachable from the edge `CommonDom → Succ`. -/
def partitionEdges (ctx : Ctx) (In : List BBEdge) (CommonDom Succ : PBlock) :
    List BBEdge :=
  In.filter (fun e => isReachableFromEdgeB ctx (BBEdge.mk (some CommonDom) Succ) e)

/-- Accumulating loop of `getCommonMappedPEGNode` from the source, after
the first edge fixed the candidate node `c`.  The outer `none` models a
crash inside the value function; `some none` is the C++ null return on a
mismatch. -/
def getCommonMappedAux (VF : BBEdge → Option PEGNode) :
    List BBEdge → PEGNode → Option (Option PEGNode)
  | [], c => some (some c)
  | e :: es, c =>
    match VF e with
    | none => none
    | some v => if v = c then getCommonMappedAux VF es c else some none

/-- `getCommonMappedPEGNode` from the source: the common value of `VF` over
the edge set, null (`some none`) when two edges map to different nodes, and
null when the set is empty (the accumulator is never set). -/
def getCommonMapped (VF : BBEdge → Option PEGNode) : List BBEdge → Option (Option PEGNode)
  | [] => some none
  | e :: es =>
    match VF e with
    | none => none
    | some v => getCommonMappedAux VF es v

/-- `getConditionNodeFor` from the source: `CondMap` holds one condition
node per concrete PEG block and nothing for virtual forward blocks, so the
lookup fails (a fatal error in the source) exactly on virtual blocks. -/
def condNodeFor (X : PBlock) : Option PEGNode :=
  if X.2 then none else some (PEGNode.cond X)

/-- `GraphRewrite::makeDecideNode` from the source.  The fuel bounds the
recursion depth (the C++ recursion is unbounded; fuel exhaustion, like
every other non-value outcome, is `none`).  Case A (`DLoops ⊆ Outer`)
first tries the collapse, then asserts `In.size() > 1`, partitions `In` by
reachability from the dominator's true/false successor edges, recurses on
both parts and builds a phi node.  Case B computes the loop to enter,
inserts it into `Outer`, recurses, and then runs `assert(false)`, so it
never produces a node. -/
def makeDecideNode (ctx : Ctx) :
    Nat → BBEdge → List BBEdge → (BBEdge → Option PEGNode) → List Nat → Option PEGNode
  | 0, _, _, _, _ => none
  | fuel + 1, Source, In, VF, Outer =>
    match findCommonDominator ctx.ncd In with
    | none => none
    | some CommonDom =>
      let DLoops := mkLoopSet ctx.parentLoop ctx.loopBound (ctx.loopFor CommonDom)
      if isSubsetB DLoops Outer then
        match getCommonMapped VF In with
        | none => none
        | some (some common) => some common
        | some none =>
          if In.length ≤ 1 then none
          else
            match ctx.tfSuccs CommonDom with
            | none => none
            | some (TrueBB, FalseBB) =>
              let TrueEdges := partitionEdges ctx In CommonDom TrueBB
              let FalseEdges := partitionEdges ctx In CommonDom FalseBB
              match makeDecideNode ctx fuel (BBEdge.mk (some CommonDom) TrueBB) TrueEdges VF Outer with
              | none => none
              | some TrueNode =>
                match makeDecideNode ctx fuel (BBEdge.mk (some CommonDom) FalseBB) FalseEdges VF Outer with
                | none => none
                | some FalseNode =>
                  match condNodeFor CommonDom with
                  | none => none
                  | some c => some (PEGNode.phi c TrueNode FalseNode)
      else
        match getOutermostLoopNotInLoop (loopContains ctx.parentLoop ctx.loopBound) Outer DLoops with
        | none => none
        | some LNew =>
          let _Val := makeDecideNode ctx fuel Source In VF (listInsert LNew Outer)
          none

/-- The CFG oracle of one procedure (spec section 6): the source blocks in
allocation (pointer) order, the entry block, CFG predecessor and successor
lists, the true/false successors of a conditional terminator (`none` for a
single-successor or unsupported terminator), and the loop analysis
(headers, innermost loop per block, parent loops, the latch query, the
loop list).  `ncd` is the nearest-common-dominator query of the PEG
dominator tree recalculated over the APEG, an external collaborator. -/
structure Oracle where
  blocks : List Nat
  entry : Nat
  preds : Nat → List Nat
  cfgSuccs : Nat → List Nat
  tf : Nat → Option (Nat × Nat)
  isHeader : Nat → Bool
  loopFor : Nat → Option Nat
  parentLoop : Nat → Option Nat
  latch : Nat → Nat → Bool
  loops : List Nat
  ncd : PBlock → PBlock → PBlock

/-- `List.mapM` over `Option`, written out so that its equations unfold
plainly: the loops in `createAPEG` stop the whole build when one step
fails. -/
def mapO (f : α → Option β) : List α → Option (List β)
  | [] => some []
  | a :: l =>
    match f a with
    | none => none
    | some b => (mapO f l).map (fun bs => b :: bs)

/-- The PEG blocks allocated by the first loop of `createAPEG`: for every
source block one concrete block, preceded by a virtual forward twin when
the block is a loop header. -/
def pegBlocks (o : Oracle) : List PBlock :=
  o.blocks.flatMap (fun b => if o.isHeader b then [(b, true), (b, false)] else [(b, false)])

/-- The static `isLoopLatch` helper from the source: asserts the loop is
present (`none` on an absent loop), returns false when the predecessor is
in no loop or in a loop different from `L`, and otherwise asks the loop
analysis whether the block is a latch of `L`. -/
def isLoopLatchW (o : Oracle) (Lq : Option Nat) (P : Nat) : Option Bool :=
  match Lq with
  | none => none
  | some L =>
    match o.loopFor P with
    | none => some false
    | some LP => if LP = L then some (o.latch L P) else some false

/-- The edge added by `createAPEG` for destination block `B` and CFG
predecessor `P`: when `B` is a loop header and `P` is a latch of `B`'s
loop (per the helper above), the edge goes to the virtual forward twin;
otherwise to the concrete block.  Sources are always concrete. -/
def edgeFor (o : Oracle) (B P : Nat) : Option (PBlock × PBlock) :=
  if o.isHeader B then
    match isLoopLatchW o (o.loopFor B) P with
    | none => none
    | some true => some ((P, false), (B, true))
    | some false => some ((P, false), (B, false))
  else some ((P, false), (B, false))

/-- The (destination, predecessor) pairs visited by the edge loop of
`createAPEG`, in map order. -/
def apegPairs (o : Oracle) : List (Nat × Nat) :=
  o.blocks.flatMap (fun B => (o.preds B).map (fun P => (B, P)))

/-- The APEG edge list built by `createAPEG` (`none` when the latch helper
asserts). -/
def apegEdges (o : Oracle) : Option (List (PBlock × PBlock)) :=
  mapO (fun bp => edgeFor o bp.1 bp.2) (apegPairs o)

/-- The condition nodes allocated by `createAPEG`: one per concrete PEG
block (`CondMap[PEGBB] = new PEGConditionNode(PEGBB)` runs for every
source block, whatever its terminator), none for virtual blocks. -/
def condNodes (o : Oracle) : List PEGNode :=
  o.blocks.map (fun b => PEGNode.cond (b, false))

/-- The surrounding loop recorded on a PEG block at construction: the loop
of the underlying source block for a concrete block, and absent for a
virtual forward block (built with `SurroundingLoop = nullptr`). -/
def pegLoopFor (o : Oracle) (X : PBlock) : Option Nat :=
  if X.2 then none else o.loopFor X.1

/-- `PEGBasicBlock::isLoopHeader` from the source:
`!IsVirtualForwardNode && LI.isLoopHeader(BB)`. -/
def isLoopHeaderPEG (o : Oracle) (X : PBlock) : Bool :=
  !X.2 && o.isHeader X.1

/-- The `IsEntry` flag of a PEG block: set only on the concrete block of
the source entry block (virtual twins are built with `IsEntry = false`). -/
def isEntryB (o : Oracle) (X : PBlock) : Bool :=
  decide (X.1 = o.entry) && !X.2

/-- The root edge recorded by `createAPEG`: no source, destination the
concrete entry block. -/
def rootEdge (o : Oracle) : BBEdge :=
  BBEdge.mk none (o.entry, false)

/-- The `Ctx` handed to `makeDecideNode` after `createAPEG` wired the APEG
edges `es`: successors read off the edge list, the true/false successors
taken from the terminator of the underlying source block (spec section 6),
and the loop analysis threaded through. -/
def mkCtx (o : Oracle) (es : List (PBlock × PBlock)) : Ctx where
  blocks := pegBlocks o
  succs := fun p => (es.filter (fun e => decide (e.1 = p))).map (fun e => e.2)
  ncd := o.ncd
  loopFor := pegLoopFor o
  parentLoop := o.parentLoop
  loopBound := o.loops.length + 1
  tfSuccs := fun p => (o.tf p.1).map (fun q => ((q.1, false), (q.2, false)))

/-- `GraphRewrite::getInEdges` from the source: the root edge for the
entry block, else one edge per APEG predecessor, collected into a set. -/
def getInEdges (o : Oracle) (es : List (PBlock × PBlock)) (X : PBlock) : List BBEdge :=
  if isEntryB o X then [rootEdge o]
  else ((es.filter (fun e => decide (e.2 = X))).map (fun e => BBEdge.mk (some e.1) X)).dedup

/-- `createValueFnGetEdgeSource` from the source: the destination block
for the root edge, else the dereferenced source block (`none` models the
failing dereference of an absent source on a non-root edge). -/
def valueFnGetEdgeSource (root : BBEdge) (e : BBEdge) : Option PEGNode :=
  if e = root then some (PEGNode.bb e.dst)
  else e.src.map PEGNode.bb

/-- `GraphRewrite::computeInputs` from the source: asserts the block is
not the entry, builds the decide node over the incoming APEG edges with
the block's loop-set as the outer set, and, when the block is a concrete
loop header, wraps it in a theta whose recurrence is `computeInputs` of
the virtual forward twin.  `dfuel` is the decide-node recursion fuel,
`fuel` the peer recursion fuel. -/
def computeInputs (o : Oracle) (es : List (PBlock × PBlock)) (dfuel : Nat) :
    Nat → PBlock → Option PEGNode
  | 0, _ => none
  | fuel + 1, X =>
    if isEntryB o X then none
    else
      match makeDecideNode (mkCtx o es) dfuel (rootEdge o) (getInEdges o es X)
          (valueFnGetEdgeSource (rootEdge o))
          (mkLoopSet o.parentLoop (o.loops.length + 1) (pegLoopFor o X)) with
      | none => none
      | some d =>
        if isLoopHeaderPEG o X then
          match computeInputs o es dfuel fuel (X.1, true) with
          | none => none
          | some r => some (PEGNode.theta d r)
        else some d

/-- The child-computation loop of `createAPEG`: `computeInputs` for every
non-entry concrete block, in map order. -/
def buildChildren (o : Oracle) (es : List (PBlock × PBlock)) (dfuel cfuel : Nat) :
    Option (List (Nat × PEGNode)) :=
  mapO (fun b => (computeInputs o es dfuel cfuel (b, false)).map (fun c => (b, c)))
    (o.blocks.filter (fun b => decide (b ≠ o.entry)))

/-- `GraphRewrite::createAPEG` from the source, observably: the APEG edge
list and the per-block children.  Any assertion or fatal error along the
way yields `none`. -/
def createAPEG (o : Oracle) (dfuel cfuel : Nat) :
    Option (List (PBlock × PBlock) × List (Nat × PEGNode)) :=
  match apegEdges o with
  | none => none
  | some es =>
    match buildChildren o es dfuel cfuel with
    | none => none
    | some cs => some (es, cs)

/-- `GraphRewrite::run` from the source: build the APEG and the PEG, touch
nothing else, and return `false` (no IR modification).  The input oracle
(the procedure and its borrowed analyses) is threaded through unchanged;
the returned triple exposes the reported modification flag, the oracle
after the run, and the built PEG. -/
def runPass (o : Oracle) (dfuel cfuel : Nat) :
    Option (Bool × Oracle × (List (PBlock × PBlock) × List (Nat × PEGNode))) :=
  (createAPEG o dfuel cfuel).map (fun peg => (false, o, peg))

/-- A walk in a successor graph: `Walk succs a l b` holds when `l` is the
list of blocks visited after `a`, each a successor of the previous one,
ending at `b` (`l = []` when `b = a`). -/
inductive Walk (succs : PBlock → List PBlock) : PBlock → List PBlock → PBlock → Prop
  | nil (a : PBlock) : Walk succs a [] a
  | cons {a y b : PBlock} {l : List PBlock} :
      y ∈ succs a → Walk succs y l b → Walk succs a (y :: l) b

/-- An address assignment for the pointer model: the block id. -/
def addrId : PBlock → Nat := fun p => p.1

/-- A three-deep loop nest: loop 1 inside loop 2 inside loop 3. -/
def parentNest : Nat → Option Nat :=
  fun l => if l = 1 then some 2 else if l = 2 then some 3 else none

/-- `Loop::contains` over `parentNest`. -/
def containsNest : Nat → Nat → Bool := loopContains parentNest 4

/-- A one-block context with no loops, used for root-edge evaluations. -/
def ctxRoot : Ctx where
  blocks := [(0, false)]
  succs := fun _ => []
  ncd := fun x _ => x
  loopFor := fun _ => none
  parentLoop := fun _ => none
  loopBound := 1
  tfSuccs := fun _ => none

/-- A context whose block `(1, false)` sits in loop 1 nested inside loop 2,
so its loop-set `[1]` is not a subset of an empty outer set: a Case B
input for the decide-node constructor. -/
def ctxCaseB : Ctx where
  blocks := [(1, false), (2, false)]
  succs := fun _ => []
  ncd := fun x _ => x
  loopFor := fun p => if p = ((1 : Nat), false) then some 1 else none
  parentLoop := fun l => if l = 1 then some 2 else none
  loopBound := 3
  tfSuccs := fun _ => none

def blkA : PBlock := (0, false)

def blkB : PBlock := (1, false)

def blkC : PBlock := (2, false)

def blkD : PBlock := (3, false)

/-- A diamond CFG `a → b → d`, `a → c → d` with conditional terminator at
`a` (true successor `b`, false successor `c`). -/
def ctxDiamond : Ctx where
  blocks := [blkA, blkB, blkC, blkD]
  succs := fun p =>
    if p = blkA then [blkB, blkC]
    else if p = blkB then [blkD]
    else if p = blkC then [blkD]
    else []
  ncd := fun x y => if x = y then x else blkA
  loopFor := fun _ => none
  parentLoop := fun _ => none
  loopBound := 1
  tfSuccs := fun p => if p = blkA then some (blkB, blkC) else none

/-- The two successor edges of the diamond's branch block. -/
def edgesDiamond : List BBEdge :=
  [BBEdge.mk (some blkA) blkB, BBEdge.mk (some blkA) blkC]

/-- A simple loop (spec scenario 4): entry `a = 0`, header `h = 1`, body
and latch `b = 2`, exit `x = 3`; `a → h`, `h → b` (true) / `h → x`
(false), `b → h` back edge. -/
def oracleLoop : Oracle where
  blocks := [0, 1, 2, 3]
  entry := 0
  preds := fun b => if b = 1 then [0, 2] else if b = 2 then [1] else if b = 3 then [1] else []
  cfgSuccs := fun b => if b = 0 then [1] else if b = 1 then [2, 3] else if b = 2 then [1] else []
  tf := fun b => if b = 1 then some (2, 3) else none
  isHeader := fun b => b = 1
  loopFor := fun b => if b = 1 then some 1 else if b = 2 then some 1 else none
  parentLoop := fun _ => none
  latch := fun L P => L = 1 && P = 2
  loops := [1]
  ncd := fun x _ => x

/-- The APEG edges `createAPEG` builds for `oracleLoop`: the latch edge is
redirected to the virtual forward twin `(1, true)`. -/
def esLoop : List (PBlock × PBlock) :=
  [((0, false), (1, false)), ((2, false), (1, true)),
   ((1, false), (2, false)), ((1, false), (3, false))]

/-- A nest: outer loop 2 with header `0`, inner loop 1 with header `1`,
and block `2` inside the inner loop that branches back to `0`, making it a
latch of the outer loop that lies in a nested loop. -/
def oracleNest : Oracle where
  blocks := [0, 1, 2]
  entry := 0
  preds := fun b => if b = 0 then [2] else if b = 1 then [0] else if b = 2 then [1] else []
  cfgSuccs := fun b => if b = 0 then [1] else if b = 1 then [2] else if b = 2 then [0] else []
  tf := fun _ => none
  isHeader := fun b => b = 0 || b = 1
  loopFor := fun b => if b = 0 then some 2 else if b = 1 then some 1 else if b = 2 then some 1 else none
  parentLoop := fun l => if l = 1 then some 2 else none
  latch := fun L P => L = 2 && P = 2
  loops := [1, 2]
  ncd := fun x _ => x

/-- The APEG edges `createAPEG` builds for `oracleNest`: every edge stays
concrete because the outer-loop latch `2` has innermost loop 1, not 2. -/
def esNest : List (PBlock × PBlock) :=
  [((2, false), (0, false)), ((0, false), (1, false)), ((1, false), (2, false))]

/-- A straight-line CFG `0 → 1` whose terminators are single-successor. -/
def oracleLine : Oracle where
  blocks := [0, 1]
  entry := 0
  preds := fun b => if b = 1 then [0] else []
  cfgSuccs := fun b => if b = 0 then [1] else []
  tf := fun _ => none
  isHeader := fun _ => false
  loopFor := fun _ => none
  parentLoop := fun _ => none
  latch := fun _ _ => false
  loops := []
  ncd := fun x _ => x

/-- The PEG built for `oracleLine`: one APEG edge and one child. -/
def pegLine : List (PBlock × PBlock) × List (Nat × PEGNode) :=
  ([((0, false), (1, false))], [(1, PEGNode.bb (0, false))])

/-! ## Helper lemmas -/

theorem fcdAux_fold (ncd : PBlock → PBlock → PBlock) :
    ∀ (es : List BBEdge) (ss : List PBlock) (acc : PBlock),
      es.map BBEdge.src = ss.map some →
      fcdAux ncd es acc = some (ss.foldl ncd acc) := by
  intro es
  induction es with
  | nil =>
    intro ss acc h
    cases ss with
    | nil => rfl
    | cons s ss2 => simp at h
  | cons e es ih =>
    intro ss acc h
    cases ss with
    | nil => simp at h
    | cons s ss2 =>
      simp only [List.map_cons, List.cons.injEq] at h
      obtain ⟨h1, h2⟩ := h
      simp only [fcdAux, h1, List.foldl_cons]
      exact ih ss2 (ncd acc s) h2

theorem getCommonMappedAux_const (VF : BBEdge → Option PEGNode) (n : PEGNode) :
    ∀ es : List BBEdge, (∀ e ∈ es, VF e = some n) →
      getCommonMappedAux VF es n = some (some n) := by
  intro es
  induction es with
  | nil => intro _; rfl
  | cons e es ih =>
    intro h
    have he : VF e = some n := h e (List.mem_cons_self e es)
    simp only [getCommonMappedAux, he, if_pos rfl]
    exact ih (fun x hx => h x (List.mem_cons_of_mem e hx))

theorem mapO_mem_image (f : α → Option β) :
    ∀ (l : List α) (es : List β), mapO f l = some es →
      ∀ a ∈ l, ∃ b ∈ es, f a = some b := by
  intro l
  induction l with
  | nil => intro es _ a ha; exact absurd ha (List.not_mem_nil a)
  | cons x l ih =>
    intro es hmap a ha
    simp only [mapO] at hmap
    cases hfx : f x with
    | none => rw [hfx] at hmap; exact absurd hmap (by simp)
    | some b0 =>
      rw [hfx] at hmap
      cases hrest : mapO f l with
      | none => rw [hrest] at hmap; exact absurd hmap (by simp)
      | some bs =>
        rw [hrest] at hmap
        have hcons : b0 :: bs = es := by simpa using hmap
        subst hcons
        rcases List.mem_cons.mp ha with h | h
        · exact ⟨b0, List.mem_cons_self b0 bs, h ▸ hfx⟩
        · obtain ⟨b, hb, hfb⟩ := ih bs hrest a h
          exact ⟨b, List.mem_cons_of_mem b0 hb, hfb⟩

theorem mapO_mem_src (f : α → Option β) :
    ∀ (l : List α) (es : List β), mapO f l = some es →
      ∀ b ∈ es, ∃ a ∈ l, f a = some b := by
  intro l
  induction l with
  | nil =>
    intro es hmap b hb
    simp only [mapO, Option.some.injEq] at hmap
    subst hmap
    exact absurd hb (List.not_mem_nil b)
  | cons x l ih =>
    intro es hmap b hb
    simp only [mapO] at hmap
    cases hfx : f x with
    | none => rw [hfx] at hmap; exact absurd hmap (by simp)
    | some b0 =>
      rw [hfx] at hmap
      cases hrest : mapO f l with
      | none => rw [hrest] at hmap; exact absurd hmap (by simp)
      | some bs =>
        rw [hrest] at hmap
        have hcons : b0 :: bs = es := by simpa using hmap
        subst hcons
        rcases List.mem_cons.mp hb with h | h
        · exact ⟨x, List.mem_cons_self x l, h ▸ hfx⟩
        · obtain ⟨a, ha, hfa⟩ := ih bs hrest b h
          exact ⟨a, List.mem_cons_of_mem x ha, hfa⟩

theorem subset_stepSet (succs : PBlock → List PBlock) (s : Finset PBlock) :
    s ⊆ stepSet succs s :=
  Finset.subset_union_left

theorem mem_stepSet_of_succ {succs : PBlock → List PBlock} {s : Finset PBlock}
    {x y : PBlock} (hx : x ∈ s) (hy : y ∈ succs x) : y ∈ stepSet succs s :=
  Finset.mem_union_right _ (Finset.mem_biUnion.mpr ⟨x, hx, List.mem_toFinset.mpr hy⟩)

theorem iterate_stepSet_subset (succs : PBlock → List PBlock) (blocks : List PBlock)
    (Hwf : ∀ x ∈ blocks, ∀ y ∈ succs x, y ∈ blocks) (a : PBlock) (ha : a ∈ blocks) :
    ∀ n, (stepSet succs)^[n] {a} ⊆ blocks.toFinset := by
  intro n
  induction n with
  | zero =>
    simp only [Function.iterate_zero_apply]
    exact Finset.singleton_subset_iff.mpr (List.mem_toFinset.mpr ha)
  | succ n ih =>
    rw [Function.iterate_succ_apply']
    intro y hy
    rcases Finset.mem_union.mp hy with h | h
    · exact ih h
    · obtain ⟨x, hx, hy2⟩ := Finset.mem_biUnion.mp h
      exact List.mem_toFinset.mpr
        (Hwf x (List.mem_toFinset.mp (ih hx)) y (List.mem_toFinset.mp hy2))

theorem card_le_iterate (succs : PBlock → List PBlock) (a : PBlock) (N : Nat)
    (h : ∀ m, m < N → (stepSet succs)^[m + 1] {a} ≠ (stepSet succs)^[m] {a}) :
    ∀ n, n ≤ N → n + 1 ≤ ((stepSet succs)^[n] {a}).card := by
  intro n
  induction n with
  | zero =>
    intro _
    simp
  | succ n ih =>
    intro hn
    have h1 : n + 1 ≤ ((stepSet succs)^[n] {a}).card := ih (Nat.le_of_succ_le hn)
    have hsub : (stepSet succs)^[n] {a} ⊆ (stepSet succs)^[n + 1] {a} := by
      rw [Function.iterate_succ_apply']
      exact subset_stepSet _ _
    have hne : (stepSet succs)^[n + 1] {a} ≠ (stepSet succs)^[n] {a} :=
      h n (Nat.lt_of_succ_le hn)
    have hss : (stepSet succs)^[n] {a} ⊂ (stepSet succs)^[n + 1] {a} :=
      lt_of_le_of_ne hsub (fun he => hne he.symm)
    have := Finset.card_lt_card hss
    omega

theorem reachSet_closed (succs : PBlock → List PBlock) (blocks : List PBlock)
    (Hwf : ∀ x ∈ blocks, ∀ y ∈ succs x, y ∈ blocks) (a : PBlock) (ha : a ∈ blocks) :
    stepSet succs (reachSet succs (blocks.length + 1) a) =
      reachSet succs (blocks.length + 1) a := by
  by_cases hfix : ∃ m, m < blocks.length + 1 ∧
      (stepSet succs)^[m + 1] {a} = (stepSet succs)^[m] {a}
  · obtain ⟨m, hm, hfx⟩ := hfix
    have hstable : ∀ k, (stepSet succs)^[m + k] {a} = (stepSet succs)^[m] {a} := by
      intro k
      induction k with
      | zero => rfl
      | succ k ih =>
        have hmk : m + (k + 1) = (m + k) + 1 := rfl
        have h5 : stepSet succs ((stepSet succs)^[m] ({a} : Finset PBlock)) =
            (stepSet succs)^[m + 1] {a} := (Function.iterate_succ_apply' _ _ _).symm
        rw [hmk, Function.iterate_succ_apply', ih, h5, hfx]
    have hiter : (stepSet succs)^[blocks.length + 1] {a} = (stepSet succs)^[m] {a} := by
      have hNm : blocks.length + 1 = m + (blocks.length + 1 - m) :=
        (Nat.add_sub_cancel' (Nat.le_of_lt hm)).symm
      rw [hNm]
      exact hstable (blocks.length + 1 - m)
    unfold reachSet
    have h5 : stepSet succs ((stepSet succs)^[m] ({a} : Finset PBlock)) =
        (stepSet succs)^[m + 1] {a} := (Function.iterate_succ_apply' _ _ _).symm
    rw [hiter, h5, hfx]
  · push_neg at hfix
    have hcard := card_le_iterate succs a (blocks.length + 1) hfix (blocks.length + 1) le_rfl
    have hsub := iterate_stepSet_subset succs blocks Hwf a ha (blocks.length + 1)
    have hbound : ((stepSet succs)^[blocks.length + 1] {a}).card ≤ blocks.length :=
      le_trans (Finset.card_le_card hsub) (List.toFinset_card_le blocks)
    exfalso
    omega

theorem mem_reachSet_self (succs : PBlock → List PBlock) (bound : Nat) (a : PBlock) :
    a ∈ reachSet succs bound a := by
  unfold reachSet
  induction bound with
  | zero => simp
  | succ n ih =>
    rw [Function.iterate_succ_apply']
    exact subset_stepSet succs _ ih

theorem walk_mem_of_closed {succs : PBlock → List PBlock} {S : Finset PBlock}
    (hcl : stepSet succs S = S) {a l b} (w : Walk succs a l b) : a ∈ S → b ∈ S := by
  induction w with
  | nil c => exact fun h => h
  | cons hy w ih => exact fun ha => ih (hcl ▸ mem_stepSet_of_succ ha hy)

theorem walk_mem_reachSet (succs : PBlock → List PBlock) (blocks : List PBlock)
    (Hwf : ∀ x ∈ blocks, ∀ y ∈ succs x, y ∈ blocks) (a : PBlock) (ha : a ∈ blocks)
    {l b} (w : Walk succs a l b) : b ∈ reachSet succs (blocks.length + 1) a :=
  walk_mem_of_closed (reachSet_closed succs blocks Hwf a ha) w
    (mem_reachSet_self succs _ a)

theorem walk_suffix {succs : PBlock → List PBlock} {a l b D} (w : Walk succs a l b) :
    D = a ∨ D ∈ l → ∃ l2, Walk succs D l2 b := by
  induction w with
  | nil c =>
    intro hD
    rcases hD with h | h
    · subst h
      exact ⟨[], Walk.nil D⟩
    · exact absurd h (List.not_mem_nil D)
  | cons hy w ih =>
    intro hD
    rcases hD with h | h
    · subst h
      exact ⟨_, Walk.cons hy w⟩
    · rcases List.mem_cons.mp h with h2 | h2
      · subst h2
        exact ⟨_, w⟩
      · exact ih (Or.inr h2)

theorem walk_first_step {succs : PBlock → List PBlock} {D l s}
    (w : Walk succs D l s) :
    s = D ∨ ∃ y l2, y ∈ succs D ∧ Walk succs y l2 s := by
  cases w with
  | nil => exact Or.inl rfl
  | cons hy w => exact Or.inr ⟨_, _, hy, w⟩

theorem isReachable_true_of_eq {ctx : Ctx} {S D : BBEdge} (h : S = D) :
    isReachableFromEdgeB ctx S D = true := by
  unfold isReachableFromEdgeB
  rw [if_pos h]

theorem isReachable_true_of_reach {ctx : Ctx} {S e : BBEdge} {s : PBlock}
    (hs : e.src = some s) (h : reachB ctx S.dst s = true) :
    isReachableFromEdgeB ctx S e = true := by
  unfold isReachableFromEdgeB
  by_cases h1 : S = e
  · rw [if_pos h1]
  · rw [if_neg h1]
    by_cases h2 : some S.dst = e.src
    · rw [if_pos h2]
    · rw [if_neg h2, hs]
      exact h

/-! ## Claims -/

/-- C6 (counterexample): on an edge set containing the root edge,
`findCommonDominator` dereferences the absent source and produces no block,
while the fold the spec describes (entry edge contributing its destination)
would return the entry block. -/
theorem findCommonDominator_root_edge_ce :
    findCommonDominator ctxRoot.ncd [BBEdge.mk none (0, false)] = none ∧
    specFindCommonDominator ctxRoot.ncd [BBEdge.mk none (0, false)] = some (0, false) := by
  constructor <;> rfl

/-- C6 (amended): on a non-empty edge set all of whose edges have a
source, `findCommonDominator` returns the fold of the
nearest-common-dominator operation over those sources; the root edge's
source is never replaced by its destination — an edge set containing the
root edge yields no block at all. -/
theorem findCommonDominator_folds_sources (ncd : PBlock → PBlock → PBlock)
    (edges : List BBEdge) (s : PBlock) (ss : List PBlock)
    (h : edges.map BBEdge.src = (s :: ss).map some) :
    findCommonDominator ncd edges = some (ss.foldl ncd s) := by
  cases edges with
  | nil => simp at h
  | cons e es =>
    simp only [List.map_cons, List.cons.injEq] at h
    obtain ⟨h1, h2⟩ := h
    simp only [findCommonDominator, h1]
    exact fcdAux_fold ncd es ss s h2

/-- C6 (witness for the amended theorem): a two-edge set with sources
`blkA` and `blkB` folds to `ncd blkA blkB`. -/
theorem findCommonDominator_folds_sources_witness :
    findCommonDominator ctxDiamond.ncd
      [BBEdge.mk (some blkA) blkD, BBEdge.mk (some blkB) blkD] =
      some ([blkB].foldl ctxDiamond.ncd blkA) :=
  findCommonDominator_folds_sources ctxDiamond.ncd
    [BBEdge.mk (some blkA) blkD, BBEdge.mk (some blkB) blkD] blkA [blkB] (by rfl)

/-- C2 (code bug): for the loop-set `[1, 2]` of a loop nest `1 ⊂ 2 ⊂ 3`
and an empty outer set, `getOutermostLoopNotInLoop` returns loop `1`, the
first loop in the set's iteration order; but `2` is in the set, is not in
the outer set, and strictly contains `1` (while `1` does not contain `2`),
so the outermost loop not in the outer set is `2`.  The dead assignment
`L = Outermost` in the source keeps the accumulator at the first element
and the membership filter is missing entirely. -/
theorem getOutermostLoop_returns_first_not_outermost :
    getOutermostLoopNotInLoop containsNest [] (mkLoopSet parentNest 4 (some 1)) = some 1 ∧
    mkLoopSet parentNest 4 (some 1) = [1, 2] ∧
    containsNest 2 1 = true ∧
    containsNest 1 2 = false ∧
    ([1, 2].all (fun l => containsNest 2 l)) = true ∧
    (2 : Nat) ∉ ([] : List Nat) := by
  refine ⟨rfl, rfl, rfl, rfl, rfl, ?_⟩
  simp

/-- C8 (code bug): `BBEdge::operator<` is not asymmetric.  Under the
address assignment `addrId`, for the distinct edges
`a = (src 3, dst 1)` and `b = (src 2, dst 2)` both `a < b` (by the
destination comparison) and `b < a` (by the source comparison) hold, so
`BBEdge` is not a valid `std::set` key; the equality operator does compare
the pair componentwise. -/
theorem bbEdgeLt_not_asymmetric :
    bbEdgeLtB addrId (BBEdge.mk (some (3, false)) (1, false))
        (BBEdge.mk (some (2, false)) (2, false)) = true ∧
    bbEdgeLtB addrId (BBEdge.mk (some (2, false)) (2, false))
        (BBEdge.mk (some (3, false)) (1, false)) = true ∧
    bbEdgeEqB (BBEdge.mk (some (3, false)) (1, false))
        (BBEdge.mk (some (2, false)) (2, false)) = false := by
  refine ⟨rfl, rfl, rfl⟩

/-- C1 (counterexample): a constant value function does not make
`makeDecideNode` return the common node regardless of dominator structure.
With the root edge in the set, `findCommonDominator` fails before the
collapse is ever tried; and when the common dominator's loop-set is not a
subset of the outer set (Case B), the call produces no node either. -/
theorem makeDecide_collapse_ce :
    makeDecideNode ctxRoot 5 (BBEdge.mk none (0, false)) [BBEdge.mk none (0, false)]
        (fun _ => some (PEGNode.bb (0, false))) [] = none ∧
    makeDecideNode ctxCaseB 5 (BBEdge.mk (some (1, false)) (2, false))
        [BBEdge.mk (some (1, false)) (2, false)]
        (fun _ => some (PEGNode.bb (1, false))) [] = none := by
  constructor <;> rfl

/-- C1 (amended): the collapse rule holds in Case A: if the edge set is
non-empty, `findCommonDominator` succeeds on it (in particular it contains
no root edge), the common dominator's loop-set is a subset of the outer
set, and the value function maps every edge to the same node `n`, then
`makeDecideNode` returns exactly `n`. -/
theorem makeDecide_collapse (ctx : Ctx) (fuel : Nat) (Source : BBEdge)
    (In : List BBEdge) (VF : BBEdge → Option PEGNode) (Outer : List Nat)
    (n : PEGNode) (D : PBlock)
    (hfcd : findCommonDominator ctx.ncd In = some D)
    (hsub : isSubsetB (mkLoopSet ctx.parentLoop ctx.loopBound (ctx.loopFor D)) Outer = true)
    (hvf : ∀ e ∈ In, VF e = some n) :
    makeDecideNode ctx (fuel + 1) Source In VF Outer = some n := by
  cases In with
  | nil => simp [findCommonDominator] at hfcd
  | cons e es =>
    have he : VF e = some n := hvf e (List.mem_cons_self e es)
    have hcm : getCommonMapped VF (e :: es) = some (some n) := by
      simp only [getCommonMapped, he]
      exact getCommonMappedAux_const VF n es (fun x hx => hvf x (List.mem_cons_of_mem e hx))
    simp only [makeDecideNode, hfcd, hsub, if_true, hcm]

/-- C1 (witness for the amended theorem): a singleton edge set with a
constant value function collapses to that value. -/
theorem makeDecide_collapse_witness :
    makeDecideNode ctxRoot 1 (BBEdge.mk none (0, false))
      [BBEdge.mk (some (0, false)) (0, false)]
      (fun _ => some (PEGNode.bb (0, false))) [] = some (PEGNode.bb (0, false)) :=
  makeDecide_collapse ctxRoot 0 (BBEdge.mk none (0, false))
    [BBEdge.mk (some (0, false)) (0, false)]
    (fun _ => some (PEGNode.bb (0, false))) [] (PEGNode.bb (0, false)) (0, false)
    (by rfl) (by rfl) (fun e _ => rfl)

/-- C7: whenever `makeDecideNode` reaches Case B (the common dominator's
loop-set is not a subset of the outer set), it produces no PEG node: the
branch recurses with the extended outer set, discards the result, and runs
`assert(false)`. -/
theorem makeDecide_caseB_no_node (ctx : Ctx) (fuel : Nat) (Source : BBEdge)
    (In : List BBEdge) (VF : BBEdge → Option PEGNode) (Outer : List Nat) (D : PBlock)
    (hfcd : findCommonDominator ctx.ncd In = some D)
    (hsub : isSubsetB (mkLoopSet ctx.parentLoop ctx.loopBound (ctx.loopFor D)) Outer = false) :
    makeDecideNode ctx (fuel + 1) Source In VF Outer = none := by
  simp only [makeDecideNode, hfcd, hsub, Bool.false_eq_true, if_false]
  cases getOutermostLoopNotInLoop (loopContains ctx.parentLoop ctx.loopBound) Outer
      (mkLoopSet ctx.parentLoop ctx.loopBound (ctx.loopFor D)) <;> rfl

/-- C7 (witness): a concrete Case B input — the dominator `(1, false)`
lies in loop 1 nested in loop 2, the outer set is empty — yields no
node. -/
theorem makeDecide_caseB_no_node_witness :
    makeDecideNode ctxCaseB 4 (BBEdge.mk (some (1, false)) (2, false))
      [BBEdge.mk (some (1, false)) (2, false)] (fun _ => none) [] = none :=
  makeDecide_caseB_no_node ctxCaseB 3 (BBEdge.mk (some (1, false)) (2, false))
    [BBEdge.mk (some (1, false)) (2, false)] (fun _ => none) [] (1, false)
    (by rfl) (by rfl)

theorem edgeFor_shape (o : Oracle) (B P : Nat) (e : PBlock × PBlock)
    (h : edgeFor o B P = some e) : e.1 = (P, false) ∧ e.2.1 = B := by
  unfold edgeFor at h
  by_cases hh : o.isHeader B = true
  · rw [if_pos hh] at h
    cases hw : isLoopLatchW o (o.loopFor B) P with
    | none => rw [hw] at h; exact absurd h (by simp)
    | some lat =>
      rw [hw] at h
      cases lat
      · have he : ((P, false), (B, false)) = e := by simpa using h
        subst he
        exact ⟨rfl, rfl⟩
      · have he : ((P, false), (B, true)) = e := by simpa using h
        subst he
        exact ⟨rfl, rfl⟩
  · rw [if_neg hh] at h
    have he : ((P, false), (B, false)) = e := by simpa using h
    subst he
    exact ⟨rfl, rfl⟩

/-- C3 (counterexample): block `2` of `oracleNest` is a latch of the outer
loop `2` (whose header is block `0`) but lies inside the nested loop `1`;
the built APEG has the edge from `2` to the concrete header and no edge
from `2` to the virtual forward twin, the opposite of the claim. -/
theorem apeg_latch_nested_ce :
    apegEdges oracleNest = some esNest ∧
    oracleNest.latch 2 2 = true ∧
    oracleNest.isHeader 0 = true ∧
    oracleNest.loopFor 0 = some 2 ∧
    oracleNest.loopFor 2 = some 1 ∧
    oracleNest.parentLoop 1 = some 2 ∧
    ((2, false), (0, true)) ∉ esNest ∧
    ((2, false), (0, false)) ∈ esNest := by
  refine ⟨rfl, rfl, rfl, rfl, rfl, rfl, by decide, by decide⟩

/-- C3 (amended): the latch-redirection invariant holds for latches whose
innermost loop is the header's loop itself: if `B` is a loop header with
loop `L`, and the predecessor `P` is a latch of `L` whose own innermost
loop is `L` (not a nested loop), then the built APEG contains the edge
from `P` to the virtual forward twin of `B` and no edge from `P` to the
concrete `B`.  A latch lying inside a nested loop keeps its edge to the
concrete header instead. -/
theorem apeg_latch_redirected (o : Oracle) (es : List (PBlock × PBlock)) (L B P : Nat)
    (hes : apegEdges o = some es)
    (hB : B ∈ o.blocks) (hP : P ∈ o.preds B)
    (hh : o.isHeader B = true)
    (hBL : o.loopFor B = some L)
    (hPL : o.loopFor P = some L)
    (hlatch : o.latch L P = true) :
    ((P, false), (B, true)) ∈ es ∧ ((P, false), (B, false)) ∉ es := by
  have hes2 : mapO (fun bp : Nat × Nat => edgeFor o bp.1 bp.2) (apegPairs o) = some es := hes
  have hpair : (B, P) ∈ apegPairs o := by
    unfold apegPairs
    exact List.mem_flatMap.mpr ⟨B, hB, List.mem_map.mpr ⟨P, hP, rfl⟩⟩
  have hef : edgeFor o B P = some ((P, false), (B, true)) := by
    simp [edgeFor, isLoopLatchW, hh, hBL, hPL, hlatch]
  constructor
  · obtain ⟨b, hb, hfb⟩ := mapO_mem_image (fun bp : Nat × Nat => edgeFor o bp.1 bp.2)
      (apegPairs o) es hes2 (B, P) hpair
    have hbe : b = ((P, false), (B, true)) := by
      rw [hef] at hfb
      exact (Option.some.injEq _ _).mp hfb.symm
    exact hbe ▸ hb
  · intro hmem
    obtain ⟨bp, hbp, hfbp⟩ := mapO_mem_src (fun bp : Nat × Nat => edgeFor o bp.1 bp.2)
      (apegPairs o) es hes2 ((P, false), (B, false)) hmem
    obtain ⟨h1, h2⟩ := edgeFor_shape o bp.1 bp.2 _ hfbp
    have hP2 : bp.2 = P := by
      have h3 : (P, false) = ((bp.2, false) : PBlock) := h1
      exact (congrArg Prod.fst h3).symm
    have hB2 : bp.1 = B := by
      have h4 : B = bp.1 := h2
      exact h4.symm
    rw [hP2, hB2, hef] at hfbp
    simp at hfbp

/-- C3 (witness for the amended theorem): in the simple loop of
`oracleLoop`, the latch `2` of loop `1` (header `1`) has innermost loop
`1`; the APEG edge goes to the virtual twin `(1, true)` and not to the
concrete header `(1, false)`. -/
theorem apeg_latch_redirected_witness :
    ((2, false), (1, true)) ∈ esLoop ∧ ((2, false), (1, false)) ∉ esLoop :=
  apeg_latch_redirected oracleLoop esLoop 1 1 2 (by rfl) (by decide) (by decide)
    (by rfl) (by rfl) (by rfl) (by rfl)

/-- C9 (counterexample): block `0` of the straight-line CFG has a
single-successor terminator (no true/false successors at all), yet the
build allocates a condition node for it: `CondMap` is filled for every
concrete block regardless of its terminator. -/
theorem condNodes_unconditional_ce :
    (oracleLine.cfgSuccs 0).length = 1 ∧
    oracleLine.tf 0 = none ∧
    PEGNode.cond (0, false) ∈ condNodes oracleLine := by
  refine ⟨rfl, rfl, by decide⟩

/-- C9 (amended): after the APEG build the condition nodes are exactly one
per concrete Block — whatever its terminator — and none for a
virtual-forward Block. -/
theorem condNodes_one_per_concrete_block (o : Oracle) (b : Nat)
    (hnd : o.blocks.Nodup) :
    (PEGNode.cond (b, false) ∈ condNodes o ↔ b ∈ o.blocks) ∧
    List.count (PEGNode.cond (b, false)) (condNodes o) =
      (if b ∈ o.blocks then 1 else 0) ∧
    PEGNode.cond (b, true) ∉ condNodes o := by
  have hinj : Function.Injective (fun x : Nat => PEGNode.cond (x, false)) := by
    intro x y hxy
    simpa using hxy
  have hmem : PEGNode.cond (b, false) ∈ condNodes o ↔ b ∈ o.blocks := by
    unfold condNodes
    constructor
    · intro h
      obtain ⟨x, hx, hfx⟩ := List.mem_map.mp h
      have : x = b := by simpa using hfx
      exact this ▸ hx
    · intro h
      exact List.mem_map.mpr ⟨b, h, rfl⟩
  refine ⟨hmem, ?_, ?_⟩
  · by_cases h : b ∈ o.blocks
    · rw [if_pos h]
      have hndm : (condNodes o).Nodup := List.Nodup.map hinj hnd
      exact List.count_eq_one_of_mem hndm (hmem.mpr h)
    · rw [if_neg h]
      exact List.count_eq_zero.mpr (fun hc => h (hmem.mp hc))
  · intro h
    obtain ⟨x, _, hfx⟩ := List.mem_map.mp h
    simp at hfx

/-- C9 (witness for the amended theorem): in the straight-line CFG, block
`0` has exactly one condition node and its virtual twin none. -/
theorem condNodes_one_per_concrete_block_witness :
    (PEGNode.cond (0, false) ∈ condNodes oracleLine ↔ (0 : Nat) ∈ oracleLine.blocks) ∧
    List.count (PEGNode.cond (0, false)) (condNodes oracleLine) =
      (if (0 : Nat) ∈ oracleLine.blocks then 1 else 0) ∧
    PEGNode.cond (0, true) ∉ condNodes oracleLine :=
  condNodes_one_per_concrete_block oracleLine 0 (by decide)

/-- C5: per-block input computation.  For a non-entry block `X` whose
decide-node call yields `d`: if `X` is a concrete loop header, the result
is a theta node with base `d` and recurrence `computeInputs` of the
virtual forward twin; otherwise — in particular for every virtual-forward
block — the result is `d` itself; and on a virtual-forward block the
computation never takes the header branch, so its value is independent of
the peer-recursion fuel: the recursion on peers stops after one step. -/
theorem computeInputs_structure (o : Oracle) (es : List (PBlock × PBlock))
    (dfuel n : Nat) (X : PBlock)
    (hent : isEntryB o X = false) :
    (isLoopHeaderPEG o X = true →
      ∀ d r, makeDecideNode (mkCtx o es) dfuel (rootEdge o) (getInEdges o es X)
          (valueFnGetEdgeSource (rootEdge o))
          (mkLoopSet o.parentLoop (o.loops.length + 1) (pegLoopFor o X)) = some d →
        computeInputs o es dfuel (n + 1) (X.1, true) = some r →
        computeInputs o es dfuel (n + 2) X = some (PEGNode.theta d r)) ∧
    (isLoopHeaderPEG o X = false →
      ∀ d, makeDecideNode (mkCtx o es) dfuel (rootEdge o) (getInEdges o es X)
          (valueFnGetEdgeSource (rootEdge o))
          (mkLoopSet o.parentLoop (o.loops.length + 1) (pegLoopFor o X)) = some d →
        computeInputs o es dfuel (n + 1) X = some d) ∧
    (∀ b : Nat, isLoopHeaderPEG o (b, true) = false) ∧
    (∀ m b, computeInputs o es dfuel (m + 1) (b, true) =
      computeInputs o es dfuel 1 (b, true)) := by
  have hstep : ∀ (fuel : Nat) (Y : PBlock), computeInputs o es dfuel (fuel + 1) Y =
      (if isEntryB o Y then none
       else
        match makeDecideNode (mkCtx o es) dfuel (rootEdge o) (getInEdges o es Y)
            (valueFnGetEdgeSource (rootEdge o))
            (mkLoopSet o.parentLoop (o.loops.length + 1) (pegLoopFor o Y)) with
        | none => none
        | some d =>
          if isLoopHeaderPEG o Y then
            match computeInputs o es dfuel fuel (Y.1, true) with
            | none => none
            | some r => some (PEGNode.theta d r)
          else some d) := fun _ _ => rfl
  refine ⟨?_, ?_, ?_, ?_⟩
  · intro hhd d r hd hr
    rw [hstep]
    rw [hent]
    simp only [Bool.false_eq_true, if_false, hd, hhd, if_true, hr]
  · intro hhd d hd
    rw [hstep]
    rw [hent]
    simp only [Bool.false_eq_true, if_false, hd, hhd, if_false]
  · intro b
    simp [isLoopHeaderPEG]
  · intro m b
    have hv : isEntryB o (b, true) = false := by simp [isEntryB]
    have hl : isLoopHeaderPEG o (b, true) = false := by simp [isLoopHeaderPEG]
    rw [hstep, hstep, hv, hl]
    simp only [Bool.false_eq_true, if_false]

/-- C5 (witness): in the simple loop, the concrete header `(1, false)`
gets `Theta(base = a, recurrence = b)` and the virtual twin's computation
returns its decide result directly at every fuel. -/
theorem computeInputs_structure_witness :
    computeInputs oracleLoop esLoop 3 2 (1, false) =
      some (PEGNode.theta (PEGNode.bb (0, false)) (PEGNode.bb (2, false))) :=
  (computeInputs_structure oracleLoop esLoop 3 0 (1, false) (by rfl)).1
    (by rfl) (PEGNode.bb (0, false)) (PEGNode.bb (2, false)) (by rfl) (by rfl)

/-- C4: partition completeness.  Consider an edge set `E` whose common
dominator (as computed by `findCommonDominator`) is `D`, with true/false
terminator successors `T` and `F` that are also `D`'s APEG successors.
If every edge of `E` is an actual APEG edge, every edge source is
reachable from `entry`, and `D` dominates every edge source (every walk
from `entry` to a source passes through `D`), then every edge of `E` lands
in `TrueEdges` or in `FalseEdges`; the partition drops no edge. -/
theorem makeDecide_partition_complete (ctx : Ctx) (entry D T F : PBlock)
    (E : List BBEdge)
    (HD : findCommonDominator ctx.ncd E = some D)
    (HT : ctx.tfSuccs D = some (T, F))
    (Hsucc : ctx.succs D = [T, F])
    (HTb : T ∈ ctx.blocks) (HFb : F ∈ ctx.blocks)
    (Hwf : ∀ x ∈ ctx.blocks, ∀ y ∈ ctx.succs x, y ∈ ctx.blocks)
    (Hsrc : ∀ e ∈ E, ∃ s, e.src = some s)
    (Hedge : ∀ e ∈ E, ∀ s, e.src = some s → e.dst ∈ ctx.succs s)
    (Hreach : ∀ e ∈ E, ∀ s, e.src = some s → ∃ l, Walk ctx.succs entry l s)
    (Hdom : ∀ e ∈ E, ∀ s, e.src = some s →
      ∀ l, Walk ctx.succs entry l s → D = entry ∨ D ∈ l) :
    ∀ e ∈ E, e ∈ partitionEdges ctx E D T ∨ e ∈ partitionEdges ctx E D F := by
  intro e he
  obtain ⟨s, hs⟩ := Hsrc e he
  obtain ⟨l, wl⟩ := Hreach e he s hs
  have hd := Hdom e he s hs l wl
  obtain ⟨l2, w2⟩ := walk_suffix wl hd
  rcases walk_first_step w2 with hsD | ⟨y, l3, hy, w3⟩
  · -- the edge starts at the dominator itself, so it is the true or the
    -- false successor edge
    have hdst := Hedge e he s hs
    rw [hsD, Hsucc] at hdst
    simp only [List.mem_cons, List.not_mem_nil, or_false] at hdst
    rcases hdst with h | h
    · left
      refine List.mem_filter.mpr ⟨he, isReachable_true_of_eq ?_⟩
      cases e with
      | mk es ed =>
        have hs2 : es = some s := hs
        have h2 : ed = T := h
        rw [hs2, hsD, h2]
    · right
      refine List.mem_filter.mpr ⟨he, isReachable_true_of_eq ?_⟩
      cases e with
      | mk es ed =>
        have hs2 : es = some s := hs
        have h2 : ed = F := h
        rw [hs2, hsD, h2]
  · -- the walk from the dominator to the source steps first into T or F,
    -- so the source is in the breadth-first visited set of T or of F
    rw [Hsucc] at hy
    simp only [List.mem_cons, List.not_mem_nil, or_false] at hy
    rcases hy with h | h
    · left
      subst h
      have hr : s ∈ reachSet ctx.succs (ctx.blocks.length + 1) y :=
        walk_mem_reachSet ctx.succs ctx.blocks Hwf y HTb w3
      have hrb : reachB ctx (BBEdge.mk (some D) y).dst s = true := by
        unfold reachB
        exact decide_eq_true hr
      exact List.mem_filter.mpr ⟨he, isReachable_true_of_reach hs hrb⟩
    · right
      subst h
      have hr : s ∈ reachSet ctx.succs (ctx.blocks.length + 1) y :=
        walk_mem_reachSet ctx.succs ctx.blocks Hwf y HFb w3
      have hrb : reachB ctx (BBEdge.mk (some D) y).dst s = true := by
        unfold reachB
        exact decide_eq_true hr
      exact List.mem_filter.mpr ⟨he, isReachable_true_of_reach hs hrb⟩

/-- C4 (witness): in the diamond, the edge set into `d` as seen from the
branch block `a` — here instantiated with the two successor edges of `a`
itself — is fully covered by the true/false partition. -/
theorem makeDecide_partition_complete_witness :
    BBEdge.mk (some blkA) blkB ∈ partitionEdges ctxDiamond edgesDiamond blkA blkB ∨
    BBEdge.mk (some blkA) blkB ∈ partitionEdges ctxDiamond edgesDiamond blkA blkC :=
  makeDecide_partition_complete ctxDiamond blkA blkA blkB blkC edgesDiamond
    (by rfl) (by rfl) (by rfl) (by decide) (by decide) (by decide)
    (by
      intro e he
      simp only [edgesDiamond, List.mem_cons, List.not_mem_nil, or_false] at he
      rcases he with h | h <;> (subst h; exact ⟨blkA, rfl⟩))
    (by
      intro e he s hs
      simp only [edgesDiamond, List.mem_cons, List.not_mem_nil, or_false] at he
      rcases he with h | h <;>
        (subst h; injection hs with hs2; subst hs2; decide))
    (by
      intro e he s hs
      simp only [edgesDiamond, List.mem_cons, List.not_mem_nil, or_false] at he
      rcases he with h | h <;>
        (subst h; injection hs with hs2; subst hs2; exact ⟨[], Walk.nil _⟩))
    (by
      intro e he s hs l w
      exact Or.inl rfl)
    (BBEdge.mk (some blkA) blkB) (by decide)

/-- C10: whenever the build completes, `GraphRewrite::run` hands back the
borrowed procedure-and-analyses state unchanged and reports `false` (no
IR modification); it exposes exactly the built PEG. -/
theorem runPass_reports_no_change (o : Oracle) (dfuel cfuel : Nat)
    (peg : List (PBlock × PBlock) × List (Nat × PEGNode))
    (h : createAPEG o dfuel cfuel = some peg) :
    runPass o dfuel cfuel = some (false, o, peg) ∧
    (∀ r, runPass o dfuel cfuel = some r → r.1 = false ∧ r.2.1 = o) := by
  constructor
  · unfold runPass
    rw [h]
    rfl
  · intro r hr
    unfold runPass at hr
    rw [h] at hr
    have : (false, o, peg) = r := by simpa using hr
    subst this
    exact ⟨rfl, rfl⟩

/-- C10 (witness): on the straight-line CFG the pass completes, returns
`false`, and the oracle comes back unchanged. -/
theorem runPass_reports_no_change_witness :
    runPass oracleLine 3 2 = some (false, oracleLine, pegLine) ∧
    (∀ r, runPass oracleLine 3 2 = some r → r.1 = false ∧ r.2.1 = oracleLine) :=
  runPass_reports_no_change oracleLine 3 2 pegLine (by rfl)
